import Mathlib

/-!
Verification development for the Tilda CLI generic Build pipeline
(src/commands/build/index.ts) and its helpers (src/lib/utils.ts,
src/lib/schemas.ts).

A JavaScript string is modelled by a Lean `String`; `String.data` gives its
characters.  A JavaScript value that may be `undefined` is modelled by an
`Option`, with `none` standing for `undefined` (a key absent from an emitted
JSON object and a key whose value is `undefined` serialize identically, so
both are `none`).  File-system listings (`fs.readdir` with `recursive` and
`withFileTypes`) are modelled as lists of entries carrying their path
relative to the listed root, their kind, and their content.
-/

/-- Characters of a string after dropping the first `n` characters
(JS `String.prototype.slice(n)`), used to model `path.relative` of a
directory against a path underneath it. -/
def jsDrop (s : String) (n : Nat) : String := ⟨s.data.drop n⟩

/-- JS `String.prototype.startsWith`. -/
def jsStartsWith (s t : String) : Bool := t.data.isPrefixOf s.data

/-- JS `String.prototype.endsWith`. -/
def jsEndsWith (s t : String) : Bool := t.data.isSuffixOf s.data

/-- JS truthiness of a string-or-undefined value: `undefined` and the empty
string are falsy, every other string is truthy. -/
def strTruthy : Option String → Bool
  | none => false
  | some s => s != ""

/-- Node `path.basename` restricted to the inputs the Build command feeds it:
non-empty slash-separated relative paths with no trailing slash.  It returns
the part after the last slash. -/
def jsBasename (s : String) : String :=
  ⟨(s.data.reverse.takeWhile (fun c => c != '/')).reverse⟩

/-- Node `path.extname`: the suffix of the basename starting at its last dot,
except that there is no extension when the basename has no dot or only a
leading dot. -/
def jsExtname (s : String) : String :=
  if ((jsBasename s).data.reverse.takeWhile (fun c => c != '.')).length =
      (jsBasename s).data.length then ""
  else if ((jsBasename s).data.reverse.takeWhile (fun c => c != '.')).length + 1 =
      (jsBasename s).data.length then ""
  else ⟨'.' :: ((jsBasename s).data.reverse.takeWhile (fun c => c != '.')).reverse⟩

/-- JS `s.replace(re, repl)` for an anchored regular expression that matches
exactly the literal suffix `sfx` at the end of the string: if the suffix is
present it is replaced by `repl`, otherwise the string is unchanged. -/
def jsReplaceSuffix (s sfx repl : String) : String :=
  if jsEndsWith s sfx then ⟨s.data.take (s.data.length - sfx.data.length) ++ repl.data⟩
  else s

/-- Replace the first occurrence of `pat` in the character list by `repl`;
the list is unchanged when `pat` does not occur. -/
def replaceFirstAux (pat repl : List Char) : List Char → List Char
  | [] => []
  | c :: cs =>
    if pat.isPrefixOf (c :: cs) then repl ++ (c :: cs).drop pat.length
    else c :: replaceFirstAux pat repl cs

/-- JS `String.prototype.replace` with a plain string pattern: replaces only
the first occurrence of `pat` (an empty pattern matches at position 0). -/
def jsReplaceFirst (s pat repl : String) : String :=
  if pat.data = [] then ⟨repl.data ++ s.data⟩
  else ⟨replaceFirstAux pat.data repl.data s.data⟩

/-! ### Route data model (src/lib/schemas.ts) -/

/-- `criteria.path` of a route rule: at most one matching mode is populated.
The source field named `prefix` is called `prefixPath` here because `prefix`
is a Lean keyword. -/
structure PathCriteria where
  exact : Option String := none
  prefixPath : Option String := none
  oneOf : Option (List String) := none
  regex : Option String := none
deriving DecidableEq

/-- `criteria` of a route rule.  HTTP methods play no role in the claims and
are carried through opaquely as an optional list of method names. -/
structure RouteCriteria where
  path : PathCriteria
  method : Option (List String) := none
deriving DecidableEq

/-- Action of an inline routing-config rule (`InlineRoutingConfigSchema`):
it may reference a static file via `staticFileRelativePath` and has no
`originPath` field (zod strips unknown keys when parsing). -/
structure InlineAction where
  origin : String
  staticFileRelativePath : Option String := none
  status : Option Int := none
  headers : Option (List (String × String)) := none
deriving DecidableEq

/-- Action of an emitted `v2.routes` rule as it appears in the serialized
metadata.  `staticFileRelativePath` can survive into an emitted rule only in
the degenerate case where the inline rule carried it as the empty string
(JS falsiness skips the rewrite then). -/
structure EmittedAction where
  origin : String
  originPath : Option String := none
  staticFileRelativePath : Option String := none
  status : Option Int := none
  headers : Option (List (String × String)) := none
deriving DecidableEq

/-- An inline routing-config rule. -/
structure InlineRoute where
  criteria : RouteCriteria
  action : InlineAction
deriving DecidableEq

/-- An emitted `v2.routes` rule. -/
structure RouteRule where
  criteria : RouteCriteria
  action : EmittedAction
deriving DecidableEq

/-! ### Staged build tree (the `fs.readdir` listing of `.tilda/build`) -/

/-- Kind of a directory entry, as reported by `entry.isFile()`,
`entry.isDirectory()` and `entry.isSymbolicLink()`. -/
inductive FsKind where
  | file
  | dir
  | symlink
deriving DecidableEq

/-- One entry of the recursive `.tilda/build` listing.  `relPath` is the
path relative to the build directory (the code computes it with
`path.relative(tildaBuildDirPath, fileAbsolutePath)`).  `content` is the
file's bytes for a regular file and the link target text for a symlink
(the code obtains the latter with `fs.readlink`); it is unused for
directories. -/
structure FsEntry where
  relPath : String
  kind : FsKind
  content : String := ""
deriving DecidableEq

/-! ### Route synthesis (Build.run, lines 291-396) -/

/-- `computeFiles`: the regular files of the build listing that live under
`compute/`. -/
def computeFiles (entries : List FsEntry) : List FsEntry :=
  entries.filter (fun e => decide (e.kind = .file) && jsStartsWith e.relPath "compute/")

/-- `pathRelativeToStaticDir`: the path of a `static/` entry relative to the
`static` root (for entries whose `relPath` starts with `static/` this drops
those 7 characters). -/
def pathRelativeToStaticDir (e : FsEntry) : String := jsDrop e.relPath 7

/-- `relativeStaticPath`: `path.join('/', pathRelativeToStaticDir)`, the
absolute route path of a static file. -/
def relativeStaticPath (e : FsEntry) : String := "/" ++ pathRelativeToStaticDir e

/-- `staticFiles`: the regular files of the build listing that live under
`static/` and whose route path is not claimed by any inline rule's
`staticFileRelativePath`. -/
def staticFiles (inl : List InlineRoute) (entries : List FsEntry) : List FsEntry :=
  entries.filter (fun e =>
    decide (e.kind = .file) && jsStartsWith e.relPath "static/" &&
      !(inl.any (fun r => r.action.staticFileRelativePath == some (relativeStaticPath e))))

/-- The fatal message raised for a stray progressive-rendering artifact,
built with `format("Stray", JSON.stringify(pathRelativeToStaticDir), ...)`
in the source; the contraction in the source text is spelled out here. -/
def strayMessage (rel : String) : String :=
  "Stray \"" ++ rel ++ "\" file should have been accounted for in inline routing config"

/-- The auto-derived rule for one remaining static file (the body of the
`staticFiles.map` at lines 335-383), over the file's path relative to the
static root.  `routePath` is `path.join('/', pathRelativeToStaticDir)`.
`this.error` aborts the build and is modelled as `Except.error`. -/
def staticFileRouteRule (rel : String) : Except String RouteRule :=
  let routePath := "/" ++ rel
  if jsBasename rel = "index.html" then
    .ok { criteria := { path := { oneOf := some [routePath,
            jsReplaceSuffix routePath "/index.html" "",
            jsReplaceSuffix routePath "/index.html" "/"] } },
          action := { origin := "static", originPath := some routePath } }
  else if jsEndsWith rel ".tildaprogressiverender.json" then
    .error (strayMessage rel)
  else if jsExtname rel = ".html" then
    .ok { criteria := { path := { oneOf := some [routePath,
            jsReplaceSuffix routePath ".html" ""] } },
          action := { origin := "static", originPath := some routePath } }
  else
    .ok { criteria := { path := { exact := some routePath } },
          action := { origin := "static" } }

/-- Rewrite applied to an inline rule's action when it is emitted
(line 332): when `staticFileRelativePath` is truthy the emitted action gets
it as `originPath` and drops the relative-reference field, otherwise the
action is passed through unchanged. -/
def emitInlineAction (a : InlineAction) : EmittedAction :=
  if strTruthy a.staticFileRelativePath then
    { origin := a.origin, originPath := a.staticFileRelativePath,
      staticFileRelativePath := none, status := a.status, headers := a.headers }
  else
    { origin := a.origin, originPath := none,
      staticFileRelativePath := a.staticFileRelativePath,
      status := a.status, headers := a.headers }

/-- An emitted inline rule: criteria are passed through unchanged. -/
def emitInlineRoute (r : InlineRoute) : RouteRule :=
  { criteria := r.criteria, action := emitInlineAction r.action }

/-- The final catch-all rule appended when any compute file exists. -/
def computeCatchAllRoute : RouteRule :=
  { criteria := { path := { prefixPath := some "/" } },
    action := { origin := "compute" } }

/-- Evaluate `f` over a list left to right, aborting at the first error
(the semantics of an array `.map` whose callback can throw). -/
def mapOrError (f : α → Except String β) : List α → Except String (List β)
  | [] => .ok []
  | a :: as =>
    match f a with
    | .error e => .error e
    | .ok b =>
      match mapOrError f as with
      | .error e => .error e
      | .ok bs => .ok (b :: bs)

/-- The `v2.routes` array (lines 329-396): emitted inline rules, then one
auto-derived rule per remaining static file in listing order, then the
compute catch-all when any compute file exists.  A thrown synthesis error
propagates as `Except.error`. -/
def buildRoutes (inl : List InlineRoute) (entries : List FsEntry) :
    Except String (List RouteRule) :=
  match mapOrError (fun e => staticFileRouteRule (pathRelativeToStaticDir e))
      (staticFiles inl entries) with
  | .error e => .error e
  | .ok auto =>
    .ok (inl.map emitInlineRoute ++ auto ++
      (if (computeFiles entries).length > 0 then [computeCatchAllRoute] else []))

/-! ### Compute payload assembly: dependency pruning (lines 196-244) -/

/-- What the dependency loop does with a single traced dependency. -/
inductive DepDecision where
  /-- The dependency lies under the underscore-named static directory, a
  root static directory or the server directory and is not copied. -/
  | skip
  /-- The dependency is the project root `package.json` and carries a truthy
  `type` field: a minimal manifest with that text is written instead. -/
  | manifestWrite (text : String)
  /-- The dependency is the project root `package.json` without a truthy
  `type` field: nothing is written. -/
  | manifestSkip
  /-- The dependency is added to `entryFileDependencies` and later copied. -/
  | copy
deriving DecidableEq

/-- The inputs of the dependency loop that are fixed for one build:
the project-relative paths of the underscore-named static directory, the
root static directories and the server directory, and the `type` field of
the parsed project `package.json` (`none` when absent; an arbitrary JSON
value in general, of which the string case is modelled). -/
structure DepConfig where
  underscoreRel : Option String := none
  staticRels : List String := []
  serverRel : String
  pkgType : Option String := none
deriving DecidableEq

/-- `JSON.stringify({ type: t }, null, 2)` for a `type` value that needs no
JSON escaping. -/
def minimalManifestText (t : String) : String :=
  "\x7b\n  \"type\": \"" ++ t ++ "\"\n\x7d"

/-- One iteration of the dependency loop (lines 197-232): the prefix skips,
the `package.json` special case, or a copy. -/
def depDecision (cfg : DepConfig) (dep : String) : DepDecision :=
  if strTruthy cfg.underscoreRel &&
      jsStartsWith dep ((cfg.underscoreRel.getD "") ++ "/") then .skip
  else if !cfg.staticRels.isEmpty &&
      cfg.staticRels.any (fun p => jsStartsWith dep (p ++ "/")) then .skip
  else if jsStartsWith dep (cfg.serverRel ++ "/") then .skip
  else if dep = "package.json" then
    if strTruthy cfg.pkgType then .manifestWrite (minimalManifestText (cfg.pkgType.getD ""))
    else .manifestSkip
  else .copy

/-- `entryFileDependencies`: the traced dependencies that survive the loop
and are copied (the trace's `fileList` is duplicate-free, so the JS `Set`
is a list preserving insertion order). -/
def entryFileDependencies (cfg : DepConfig) (fileList : List String) : List String :=
  fileList.filter (fun d => decide (depDecision cfg d = .copy))

/-- The copy loop (lines 235-244): each surviving dependency is copied from
`path.join(projectDirPath, dep)` to `path.join(tildaBuildComputeDirPath, dep)`
(`path.join` of a directory and a normalized relative path is modelled as
slash concatenation). -/
def dependencyCopyPlan (projectDirPath computeDirPath : String)
    (cfg : DepConfig) (fileList : List String) : List (String × String) :=
  (entryFileDependencies cfg fileList).map
    (fun d => (projectDirPath ++ "/" ++ d, computeDirPath ++ "/" ++ d))

/-! ### Lock file check (lines 255-281) -/

/-- Result of `fs.stat` on one candidate lock file: `none` models the
rejected promise mapped to JS `false`, `some b` models `{ isFile: b }`. -/
abbrev StatOutcome := Option Bool

/-- `lockFilesInfo` for the two candidates `package-lock.json` and
`pnpm-lock.yaml`, each entry `none` (JS `false`) or the stat record. -/
structure LockFileInfo where
  isFile : Bool
  filePath : String
deriving DecidableEq

/-- The `lockFilesInfo` array built from the two stat outcomes. -/
def lockFilesInfo (statPackageLock statPnpmLock : StatOutcome) :
    List (Option LockFileInfo) :=
  [statPackageLock.map (fun b => ⟨b, "package-lock.json"⟩),
   statPnpmLock.map (fun b => ⟨b, "pnpm-lock.yaml"⟩)]

/-- `lockFilesInfo.find(info => info !== false && info.isFile)`. -/
def findExistingLockFile (infos : List (Option LockFileInfo)) : Option LockFileInfo :=
  (infos.find? (fun i => match i with | none => false | some x => x.isFile)).bind id

/-- The lock-file phase: a fatal error when no candidate is a regular file,
otherwise the list of lock files the copy loop copies into `debug/` (the
loop skips only the JS-`false` entries). -/
def lockFileCheck (statPackageLock statPnpmLock : StatOutcome) :
    Except String (List String) :=
  let infos := lockFilesInfo statPackageLock statPnpmLock
  match findExistingLockFile infos with
  | none => .error "Lock file not found: package-lock.json, pnpm-lock.yaml"
  | some _ => .ok ((infos.filterMap id).map (fun i => i.filePath))

/-! ### Package archiving (lines 411-441) -/

/-- One entry of the JSZip archive.  `symlinkPerm` records whether the
`unixPermissions: 0o120755` symlink mode was attached. -/
structure ZipEntry where
  path : String
  content : String
  symlinkPerm : Bool
deriving DecidableEq

/-- `zip.file(path, data)`: JSZip keeps one entry per path, overwriting in
place on a repeated path. -/
def zipFileAdd (z : List ZipEntry) (e : ZipEntry) : List ZipEntry :=
  if z.any (fun x => x.path == e.path) then
    z.map (fun x => if x.path == e.path then e else x)
  else z ++ [e]

/-- The archive entry contributed by one listing entry: directories are
skipped, a symlink stores its link-target text with the symlink permission
bits, a regular file stores its bytes. -/
def zipEntryOfFsEntry (e : FsEntry) : Option ZipEntry :=
  match e.kind with
  | .dir => none
  | .symlink => some { path := e.relPath, content := e.content, symlinkPerm := true }
  | .file => some { path := e.relPath, content := e.content, symlinkPerm := false }

/-- The archive loop over the build-tree listing. -/
def addZipEntries : List FsEntry → List ZipEntry → List ZipEntry
  | [], z => z
  | e :: es, z =>
    match zipEntryOfFsEntry e with
    | none => addZipEntries es z
    | some x => addZipEntries es (zipFileAdd z x)

/-- The produced archive: every non-directory listing entry at its path
relative to the build root, then the metadata document re-embedded as a
top-level `metadata.json` entry (line 441).  `metadataText` is
`JSON.stringify(buildMetadata, null, 2)`, the same string written to the
staging tree's `metadata.json` at line 405. -/
def buildZip (files : List FsEntry) (metadataText : String) : List ZipEntry :=
  zipFileAdd (addZipEntries files [])
    { path := "metadata.json", content := metadataText, symlinkPerm := false }

/-! ### Underscore-named static directory (line 173) -/

/-- `path.relative(projectDirPath, underscoreNamedStaticDirPath).replace('.', '_')`,
over the already-computed relative path. -/
def underscoreDirName (projRel : String) : String := jsReplaceFirst projRel "." "_"

/-- Modelled from the spec's words for comparison (claim C8): replace only a
leading dot of the relative path by an underscore, leaving everything else
unchanged. -/
def specLeadingDotReplaced (projRel : String) : String :=
  if jsStartsWith projRel "." then "_" ++ jsDrop projRel 1 else projRel

/-! ### safely (src/lib/utils.ts) -/

/-- `safely(fnOrPromise)`: the outcome of calling the function or awaiting
the promise is an `Except` whose error is the thrown/rejected JS value and
whose success is the returned/resolved JS value; either value may itself be
`undefined` (`none`).  `safely` never throws: it returns
`[undefined, result]` on success and `[error, undefined]` on failure. -/
def safely (outcome : Except (Option ε) (Option α)) : Option ε × Option α :=
  match outcome with
  | .error e => (e, none)
  | .ok v => (none, v)

/-! ### Spec-side definition for the static-route claim -/

/-- Modelled from the spec's words (claim C2), for comparison with
`staticFileRouteRule`: the three-case precedence over a remaining static
file, phrased as the spec states it — an `index.html` rule matches a
duplicate-free list presenting exactly the three path variants (the full
route path, the route path with a trailing `/index.html` removed, and that
trimmed path with a trailing `/` appended) and serves the file at its route
path; a non-index `.html` rule likewise presents the full and
extension-stripped variants; any other file gets an exact match with a
static action carrying no `originPath`. -/
def specStaticRouteRule (rel : String) (r : RouteRule) : Prop :=
  if jsBasename rel = "index.html" then
    ∃ vs, r.criteria.path.oneOf = some vs ∧ vs.Nodup ∧
      (∀ x, x ∈ vs ↔ (x = "/" ++ rel ∨
        x = jsReplaceSuffix ("/" ++ rel) "/index.html" "" ∨
        x = jsReplaceSuffix ("/" ++ rel) "/index.html" "" ++ "/")) ∧
      r.action.origin = "static" ∧ r.action.originPath = some ("/" ++ rel)
  else if jsExtname rel = ".html" then
    ∃ vs, r.criteria.path.oneOf = some vs ∧ vs.Nodup ∧
      (∀ x, x ∈ vs ↔ (x = "/" ++ rel ∨ x = jsReplaceSuffix ("/" ++ rel) ".html" "")) ∧
      r.action.origin = "static" ∧ r.action.originPath = some ("/" ++ rel)
  else
    r.criteria.path = { exact := some ("/" ++ rel) } ∧
    r.action = { origin := "static" }

/-! ### Helper lemmas about the string primitives -/

theorem strDataEq {s t : String} (h : s.data = t.data) : s = t := by
  cases s
  cases t
  exact congrArg String.mk h

theorem jsStartsWith_iff {s t : String} : jsStartsWith s t = true ↔ t.data <+: s.data := by
  simp [jsStartsWith, List.isPrefixOf_iff_prefix]

theorem jsEndsWith_iff {s t : String} : jsEndsWith s t = true ↔ t.data <:+ s.data := by
  simp [jsEndsWith, List.isSuffixOf_iff_suffix]

theorem dropWhile_head_false {p : Char → Bool} :
    ∀ {l c cs}, List.dropWhile p l = c :: cs → p c = false := by
  intro l
  induction l with
  | nil => intro c cs h; simp [List.dropWhile] at h
  | cons a as ih =>
    intro c cs h
    by_cases hp : p a = true
    · rw [List.dropWhile_cons_of_pos hp] at h
      exact ih h
    · rw [List.dropWhile_cons_of_neg hp] at h
      obtain ⟨rfl, -⟩ := List.cons.inj h
      simpa using hp

theorem prefix_of_takeWhile {p : Char → Bool} :
    ∀ {t l : List Char}, t <+: l → (∀ c ∈ t, p c = true) → t <+: l.takeWhile p := by
  intro t
  induction t with
  | nil => intro l _ _; exact List.nil_prefix
  | cons c cs ih =>
    intro l hpre hall
    cases l with
    | nil => simp [List.prefix_nil] at hpre
    | cons d ds =>
      obtain ⟨rfl, hcs⟩ := List.cons_prefix_cons.mp hpre
      have hpc : p c = true := hall c (List.mem_cons_self c cs)
      rw [List.takeWhile_cons_of_pos hpc]
      exact List.cons_prefix_cons.mpr
        ⟨rfl, ih hcs (fun x hx => hall x (List.mem_cons_of_mem c hx))⟩

theorem basename_data (s : String) :
    (jsBasename s).data = (s.data.reverse.takeWhile (fun c => c != '/')).reverse := rfl

theorem basename_suffix (s : String) : (jsBasename s).data <:+ s.data := by
  have hsplit := List.takeWhile_append_dropWhile (fun c => c != '/') s.data.reverse
  refine ⟨(s.data.reverse.dropWhile (fun c => c != '/')).reverse, ?_⟩
  rw [basename_data, ← List.reverse_append, hsplit, List.reverse_reverse]

theorem basename_slash_suffix (s : String) :
    '/' :: (jsBasename s).data <:+ '/' :: s.data := by
  have hsplit := List.takeWhile_append_dropWhile (fun c => c != '/') s.data.reverse
  cases hD : s.data.reverse.dropWhile (fun c => c != '/') with
  | nil =>
    rw [hD, List.append_nil] at hsplit
    have htw : s.data.reverse.takeWhile (fun c => c != '/') = s.data.reverse := hsplit
    have hbd : (jsBasename s).data = s.data := by
      rw [basename_data, htw, List.reverse_reverse]
    rw [hbd]
  | cons c D =>
    have hc : c = '/' := by
      have := dropWhile_head_false hD
      simpa using this
    subst hc
    have hrev : s.data.reverse = (jsBasename s).data.reverse ++ '/' :: D := by
      rw [basename_data, List.reverse_reverse, ← hD]
      exact hsplit.symm
    have hs : s.data = D.reverse ++ '/' :: (jsBasename s).data := by
      have h2 := congrArg List.reverse hrev
      rw [List.reverse_reverse] at h2
      rw [h2, List.reverse_append, List.reverse_cons, List.reverse_reverse,
        List.append_assoc]
      simp
    rw [hs]
    exact ⟨'/' :: D.reverse, by simp⟩

theorem extname_html_suffix {s : String} (h : jsExtname s = ".html") :
    ".html".data <:+ (jsBasename s).data := by
  unfold jsExtname at h
  split_ifs at h with h1 h2
  · exact absurd h (by decide)
  · exact absurd h (by decide)
  · have hd : '.' :: ((jsBasename s).data.reverse.takeWhile (fun c => c != '.')).reverse =
        ".html".data := congrArg String.data h
    have hrfl : ".html".data = '.' :: "html".data := rfl
    rw [hrfl] at hd
    obtain ⟨-, htl⟩ := List.cons.inj hd
    have hE : (jsBasename s).data.reverse.takeWhile (fun c => c != '.') =
        "html".data.reverse := by
      have h2 := congrArg List.reverse htl
      rw [List.reverse_reverse] at h2
      exact h2
    have hsplit := List.takeWhile_append_dropWhile (fun c => c != '.')
      (jsBasename s).data.reverse
    cases hD : (jsBasename s).data.reverse.dropWhile (fun c => c != '.') with
    | nil =>
      exfalso
      apply h1
      rw [hD, List.append_nil] at hsplit
      rw [hsplit, List.length_reverse]
    | cons c D =>
      have hc : c = '.' := by
        have := dropWhile_head_false hD
        simpa using this
      subst hc
      have hrev : (jsBasename s).data.reverse = "html".data.reverse ++ '.' :: D := by
        rw [← hE, ← hD]
        exact hsplit.symm
      have hb : (jsBasename s).data = D.reverse ++ '.' :: "html".data := by
        have h2 := congrArg List.reverse hrev
        rw [List.reverse_reverse] at h2
        rw [h2, List.reverse_append, List.reverse_cons, List.reverse_reverse,
          List.append_assoc]
        simp
      rw [hb, hrfl]
      exact ⟨D.reverse, rfl⟩

theorem data_slash_append (s : String) : ("/" ++ s).data = '/' :: s.data := by
  rw [String.data_append]
  rfl

theorem extname_html_ends {s : String} (h : jsExtname s = ".html") :
    jsEndsWith ("/" ++ s) ".html" = true := by
  apply jsEndsWith_iff.mpr
  have h3 : ".html".data <:+ s.data := (extname_html_suffix h).trans (basename_suffix s)
  rw [data_slash_append]
  exact h3.trans (List.suffix_cons '/' s.data)

theorem basename_index_ends {s : String} (h : jsBasename s = "index.html") :
    jsEndsWith ("/" ++ s) "/index.html" = true := by
  apply jsEndsWith_iff.mpr
  have h1 := basename_slash_suffix s
  rw [h] at h1
  rw [data_slash_append]
  exact h1

theorem suffix_basename_of_no_slash {s t : String} (h : t.data <:+ s.data)
    (hns : ('/' : Char) ∉ t.data) : t.data <:+ (jsBasename s).data := by
  have hp : t.data.reverse <+: s.data.reverse := List.reverse_prefix.mpr h
  have hall : ∀ c ∈ t.data.reverse, (c != '/') = true := by
    intro c hc
    rw [List.mem_reverse] at hc
    have : c ≠ '/' := fun hEq => hns (hEq ▸ hc)
    simpa using this
  have h2 := prefix_of_takeWhile hp hall
  rw [basename_data]
  exact List.reverse_prefix.mp (by rw [List.reverse_reverse]; exact h2)

theorem replaceSuffix_length {s sfx repl : String} (h : jsEndsWith s sfx = true) :
    (jsReplaceSuffix s sfx repl).data.length =
      s.data.length - sfx.data.length + repl.data.length := by
  have hk : sfx.data.length ≤ s.data.length := (jsEndsWith_iff.mp h).length_le
  unfold jsReplaceSuffix
  rw [if_pos h]
  show (s.data.take (s.data.length - sfx.data.length) ++ repl.data).length = _
  rw [List.length_append, List.length_take]
  omega

theorem replaceSuffix_slash {s sfx : String} (h : jsEndsWith s sfx = true) :
    jsReplaceSuffix s sfx "/" = jsReplaceSuffix s sfx "" ++ "/" := by
  apply strDataEq
  simp only [jsReplaceSuffix, h, if_true, String.data_append]
  show s.data.take _ ++ "/".data = (s.data.take _ ++ "".data) ++ "/".data
  simp

/-- C2: for every file under `static/` not claimed by an inline rule, the
auto-derived route rule follows the three-case precedence the spec states —
an `index.html` file yields a `oneOf` of the three deduplicated path
variants served via `originPath` at the full route path; another `.html`
file yields a `oneOf` of the two deduplicated variants; any other file
yields an exact match on the route path with a static action carrying no
`originPath`. -/
theorem staticRule_follows_spec (rel : String) (r : RouteRule)
    (h : staticFileRouteRule rel = .ok r) : specStaticRouteRule rel r := by
  simp only [staticFileRouteRule] at h
  unfold specStaticRouteRule
  by_cases hb : jsBasename rel = "index.html"
  · rw [if_pos hb] at h ⊢
    obtain rfl := Except.ok.inj h
    have hE : jsEndsWith ("/" ++ rel) "/index.html" = true := basename_index_ends hb
    have h11 : ("/index.html" : String).data.length ≤ ("/" ++ rel).data.length :=
      (jsEndsWith_iff.mp hE).length_le
    have l11 : ("/index.html" : String).data.length = 11 := by decide
    rw [l11] at h11
    have hlen0 := @replaceSuffix_length ("/" ++ rel) _ "" hE
    have hlen1 := @replaceSuffix_length ("/" ++ rel) _ "/" hE
    rw [l11] at hlen0 hlen1
    have lz : ("" : String).data.length = 0 := by decide
    have lo : ("/" : String).data.length = 1 := by decide
    rw [lz] at hlen0
    rw [lo] at hlen1
    have hne12 : ("/" ++ rel) ≠ jsReplaceSuffix ("/" ++ rel) "/index.html" "" := by
      intro hEq
      have hl : ("/" ++ rel).data.length =
          (jsReplaceSuffix ("/" ++ rel) "/index.html" "").data.length := by rw [← hEq]
      omega
    have hne13 : ("/" ++ rel) ≠ jsReplaceSuffix ("/" ++ rel) "/index.html" "/" := by
      intro hEq
      have hl : ("/" ++ rel).data.length =
          (jsReplaceSuffix ("/" ++ rel) "/index.html" "/").data.length := by rw [← hEq]
      omega
    have hne23 : jsReplaceSuffix ("/" ++ rel) "/index.html" "" ≠
        jsReplaceSuffix ("/" ++ rel) "/index.html" "/" := by
      intro hEq
      have hl : (jsReplaceSuffix ("/" ++ rel) "/index.html" "").data.length =
          (jsReplaceSuffix ("/" ++ rel) "/index.html" "/").data.length := by rw [← hEq]
      omega
    refine ⟨_, rfl, ?_, ?_, rfl, rfl⟩
    · exact List.Nodup.cons (by simp [hne12, hne13])
        (List.Nodup.cons (by simp [hne23]) (List.nodup_singleton _))
    · intro x
      rw [replaceSuffix_slash hE]
      simp
  · rw [if_neg hb] at h ⊢
    by_cases hs : jsEndsWith rel ".tildaprogressiverender.json" = true
    · rw [if_pos hs] at h
      exact absurd h (by simp)
    · rw [if_neg hs] at h
      by_cases hx : jsExtname rel = ".html"
      · rw [if_pos hx] at h ⊢
        obtain rfl := Except.ok.inj h
        have hE : jsEndsWith ("/" ++ rel) ".html" = true := extname_html_ends hx
        have h5 : (".html" : String).data.length ≤ ("/" ++ rel).data.length :=
          (jsEndsWith_iff.mp hE).length_le
        have l5 : (".html" : String).data.length = 5 := by decide
        rw [l5] at h5
        have hlen0 := @replaceSuffix_length ("/" ++ rel) _ "" hE
        rw [l5] at hlen0
        have lz : ("" : String).data.length = 0 := by decide
        rw [lz] at hlen0
        have hne12 : ("/" ++ rel) ≠ jsReplaceSuffix ("/" ++ rel) ".html" "" := by
          intro hEq
          have hl : ("/" ++ rel).data.length =
              (jsReplaceSuffix ("/" ++ rel) ".html" "").data.length := by rw [← hEq]
          omega
        refine ⟨_, rfl, ?_, ?_, rfl, rfl⟩
        · exact List.Nodup.cons (by simp [hne12]) (List.nodup_singleton _)
        · intro x
          simp
      · rw [if_neg hx] at h ⊢
        obtain rfl := Except.ok.inj h
        exact ⟨rfl, rfl⟩

/-- Witness for C2 at the concrete file `index.html` at the static root. -/
theorem staticRule_follows_spec_witness :
    specStaticRouteRule "index.html"
      { criteria := { path := { oneOf := some ["/index.html", "", "/"] } },
        action := { origin := "static", originPath := some "/index.html" } } :=
  staticRule_follows_spec "index.html" _ rfl

theorem mapOrError_ok_forall2 {f : α → Except String β} :
    ∀ {l : List α} {l' : List β}, mapOrError f l = .ok l' →
      List.Forall₂ (fun a b => f a = .ok b) l l' := by
  intro l
  induction l with
  | nil =>
    intro l' h
    obtain rfl := Except.ok.inj h
    exact .nil
  | cons a as ih =>
    intro l' h
    unfold mapOrError at h
    cases hfa : f a with
    | error e => rw [hfa] at h; exact absurd h (by simp)
    | ok b =>
      rw [hfa] at h
      cases hm : mapOrError f as with
      | error e => rw [hm] at h; exact absurd h (by simp)
      | ok bs =>
        rw [hm] at h
        obtain rfl := Except.ok.inj h
        exact .cons hfa (ih hm)

/-- C1: whenever route synthesis succeeds, the emitted `v2.routes` array is
exactly the inline rules in supplied order, then one auto-derived rule per
remaining static file in listing order, then a single compute catch-all
rule present if and only if at least one file exists under `compute/`; when
present the catch-all is the last rule. -/
theorem routes_order (inl : List InlineRoute) (entries : List FsEntry)
    (rs : List RouteRule) (h : buildRoutes inl entries = .ok rs) :
    ∃ auto : List RouteRule,
      List.Forall₂ (fun e r => staticFileRouteRule (pathRelativeToStaticDir e) = .ok r)
        (staticFiles inl entries) auto ∧
      rs = inl.map emitInlineRoute ++ auto ++
        (if (computeFiles entries).length > 0 then [computeCatchAllRoute] else []) ∧
      ((computeFiles entries).length > 0 → rs.getLast? = some computeCatchAllRoute) ∧
      ((computeFiles entries).length = 0 → rs = inl.map emitInlineRoute ++ auto) := by
  unfold buildRoutes at h
  cases hm : mapOrError (fun e => staticFileRouteRule (pathRelativeToStaticDir e))
      (staticFiles inl entries) with
  | error e => rw [hm] at h; exact absurd h (by simp)
  | ok auto =>
    rw [hm] at h
    obtain rfl := Except.ok.inj h
    refine ⟨auto, mapOrError_ok_forall2 hm, rfl, ?_, ?_⟩
    · intro hc
      rw [if_pos hc]
      exact List.getLast?_concat _
    · intro hc
      rw [if_neg (by omega), List.append_nil]

/-- Witness for C1: a build with one static file and one compute file
produces the exact static rule followed by the compute catch-all. -/
theorem routes_order_witness :
    ∃ auto : List RouteRule,
      List.Forall₂ (fun e r => staticFileRouteRule (pathRelativeToStaticDir e) = .ok r)
        (staticFiles []
          [{ relPath := "static/logo.png", kind := .file },
           { relPath := "compute/server/app.js", kind := .file }]) auto ∧
      [({ criteria := { path := { exact := some "/logo.png" } },
          action := { origin := "static" } } : RouteRule), computeCatchAllRoute] =
        List.map emitInlineRoute [] ++ auto ++
        (if (computeFiles
          [{ relPath := "static/logo.png", kind := .file },
           { relPath := "compute/server/app.js", kind := .file }]).length > 0 then
          [computeCatchAllRoute] else []) ∧
      ((computeFiles
          [{ relPath := "static/logo.png", kind := .file },
           { relPath := "compute/server/app.js", kind := .file }]).length > 0 →
        ([({ criteria := { path := { exact := some "/logo.png" } },
             action := { origin := "static" } } : RouteRule),
          computeCatchAllRoute].getLast? = some computeCatchAllRoute)) ∧
      ((computeFiles
          [{ relPath := "static/logo.png", kind := .file },
           { relPath := "compute/server/app.js", kind := .file }]).length = 0 →
        [({ criteria := { path := { exact := some "/logo.png" } },
            action := { origin := "static" } } : RouteRule), computeCatchAllRoute] =
          List.map emitInlineRoute [] ++ auto) :=
  routes_order []
    [{ relPath := "static/logo.png", kind := .file },
     { relPath := "compute/server/app.js", kind := .file }]
    [{ criteria := { path := { exact := some "/logo.png" } },
       action := { origin := "static" } }, computeCatchAllRoute] rfl

theorem mapOrError_error_of_mem {f : α → Except String β} :
    ∀ {l : List α}, (∃ a ∈ l, ∃ m, f a = .error m) →
      ∃ a ∈ l, ∃ m, f a = .error m ∧ mapOrError f l = .error m := by
  intro l
  induction l with
  | nil => intro h; simp at h
  | cons a as ih =>
    intro h
    cases hfa : f a with
    | error m =>
      exact ⟨a, List.mem_cons_self a as, m, hfa, by unfold mapOrError; rw [hfa]⟩
    | ok b =>
      obtain ⟨x, hx, m, hm⟩ := h
      have hxas : x ∈ as := by
        rcases List.mem_cons.mp hx with rfl | hxas
        · rw [hfa] at hm; exact absurd hm (by simp)
        · exact hxas
      obtain ⟨y, hy, m', hm', hmap⟩ := ih ⟨x, hxas, m, hm⟩
      refine ⟨y, List.mem_cons_of_mem a hy, m', hm', ?_⟩
      unfold mapOrError
      rw [hfa, hmap]

theorem staticFileRouteRule_error {rel m : String}
    (h : staticFileRouteRule rel = .error m) :
    m = strayMessage rel ∧ jsEndsWith rel ".tildaprogressiverender.json" = true := by
  simp only [staticFileRouteRule] at h
  by_cases hb : jsBasename rel = "index.html"
  · rw [if_pos hb] at h
    exact absurd h (by simp)
  · rw [if_neg hb] at h
    by_cases hs : jsEndsWith rel ".tildaprogressiverender.json" = true
    · rw [if_pos hs] at h
      exact ⟨(Except.error.inj h).symm, hs⟩
    · rw [if_neg hs] at h
      by_cases hx : jsExtname rel = ".html"
      · rw [if_pos hx] at h; exact absurd h (by simp)
      · rw [if_neg hx] at h; exact absurd h (by simp)

theorem stray_not_index {rel : String}
    (h : jsEndsWith rel ".tildaprogressiverender.json" = true) :
    ¬ jsBasename rel = "index.html" := by
  intro hb
  have hsuf : (".tildaprogressiverender.json" : String).data <:+ (jsBasename rel).data :=
    suffix_basename_of_no_slash (jsEndsWith_iff.mp h) (by decide)
  rw [hb] at hsuf
  exact absurd hsuf (by decide)

theorem stray_rule_errors {rel : String}
    (h : jsEndsWith rel ".tildaprogressiverender.json" = true) :
    staticFileRouteRule rel = .error (strayMessage rel) := by
  simp only [staticFileRouteRule]
  rw [if_neg (stray_not_index h), if_pos h]

/-- C6: if any file with the `.tildaprogressiverender.json` suffix survives
into the remaining static files (that is, it is not claimed by an inline
rule), route synthesis aborts with the stray-artifact error naming such a
file, and no routes array is produced at all. -/
theorem stray_artifact_aborts (inl : List InlineRoute) (entries : List FsEntry)
    (h : ∃ e ∈ staticFiles inl entries,
      jsEndsWith (pathRelativeToStaticDir e) ".tildaprogressiverender.json" = true) :
    ∃ e ∈ staticFiles inl entries,
      jsEndsWith (pathRelativeToStaticDir e) ".tildaprogressiverender.json" = true ∧
      buildRoutes inl entries = .error (strayMessage (pathRelativeToStaticDir e)) ∧
      ∀ rs, ¬ buildRoutes inl entries = .ok rs := by
  obtain ⟨e, he, hstray⟩ := h
  obtain ⟨a, ha, m, hm, hmap⟩ := mapOrError_error_of_mem
    (f := fun e => staticFileRouteRule (pathRelativeToStaticDir e))
    ⟨e, he, strayMessage (pathRelativeToStaticDir e), stray_rule_errors hstray⟩
  obtain ⟨hmsg, hstraya⟩ := staticFileRouteRule_error hm
  subst hmsg
  refine ⟨a, ha, hstraya, ?_, ?_⟩
  · unfold buildRoutes
    rw [hmap]
  · intro rs hok
    unfold buildRoutes at hok
    rw [hmap] at hok
    exact absurd hok (by simp)

/-- Witness for C6: a single stray artifact in the static tree with an empty
inline config. -/
theorem stray_artifact_aborts_witness :
    ∃ e ∈ staticFiles ([] : List InlineRoute)
        [{ relPath := "static/page.tildaprogressiverender.json", kind := .file }],
      jsEndsWith (pathRelativeToStaticDir e) ".tildaprogressiverender.json" = true ∧
      buildRoutes [] [{ relPath := "static/page.tildaprogressiverender.json", kind := .file }] =
        .error (strayMessage (pathRelativeToStaticDir e)) ∧
      ∀ rs, ¬ buildRoutes []
        [{ relPath := "static/page.tildaprogressiverender.json", kind := .file }] = .ok rs :=
  stray_artifact_aborts []
    [{ relPath := "static/page.tildaprogressiverender.json", kind := .file }]
    ⟨{ relPath := "static/page.tildaprogressiverender.json", kind := .file },
      by decide, by decide⟩

/-- C3: an inline rule whose action references a static file (a non-empty
`staticFileRelativePath`, JS truthiness) is emitted with that reference
moved into `originPath` and the relative-reference field dropped, all other
fields unchanged; and every static file whose absolute route path is
referenced by some inline rule is excluded from auto-derived static-route
generation. -/
theorem inline_rewrite_and_exclusion :
    (∀ (r : InlineRoute) (s : String), r.action.staticFileRelativePath = some s → s ≠ "" →
      (emitInlineRoute r).criteria = r.criteria ∧
      (emitInlineRoute r).action.origin = r.action.origin ∧
      (emitInlineRoute r).action.originPath = some s ∧
      (emitInlineRoute r).action.staticFileRelativePath = none ∧
      (emitInlineRoute r).action.status = r.action.status ∧
      (emitInlineRoute r).action.headers = r.action.headers) ∧
    (∀ (inl : List InlineRoute) (entries : List FsEntry) (e : FsEntry),
      (∃ rr ∈ inl, rr.action.staticFileRelativePath = some (relativeStaticPath e)) →
      ¬ e ∈ staticFiles inl entries) := by
  constructor
  · intro r s hs hne
    have ht : strTruthy r.action.staticFileRelativePath = true := by
      rw [hs]
      simpa [strTruthy] using hne
    unfold emitInlineRoute emitInlineAction
    rw [if_pos ht]
    exact ⟨rfl, rfl, by simp [hs], rfl, rfl, rfl⟩
  · intro inl entries e hex hmem
    obtain ⟨rr, hrr, hsome⟩ := hex
    have hany : inl.any (fun r => r.action.staticFileRelativePath ==
        some (relativeStaticPath e)) = true :=
      List.any_eq_true.mpr ⟨rr, hrr, by rw [hsome]; exact beq_self_eq_true _⟩
    rw [staticFiles, List.mem_filter] at hmem
    have hpred := hmem.2
    simp only [hany] at hpred
    simp at hpred

/-- Witness for C3: an inline rule referencing `/shell.html` is rewritten
and the referenced static file is excluded from auto-derivation. -/
theorem inline_rewrite_and_exclusion_witness :
    (emitInlineRoute
      { criteria := { path := { exact := some "/resume" } },
        action := { origin := "static",
                    staticFileRelativePath := some "/shell.html" } }).action.originPath =
      some "/shell.html" ∧
    ¬ ({ relPath := "static/shell.html", kind := FsKind.file, content := "" } : FsEntry) ∈
      staticFiles
        [{ criteria := { path := { exact := some "/resume" } },
           action := { origin := "static",
                       staticFileRelativePath := some "/shell.html" } }]
        [{ relPath := "static/shell.html", kind := FsKind.file, content := "" }] :=
  ⟨(inline_rewrite_and_exclusion.1
      { criteria := { path := { exact := some "/resume" } },
        action := { origin := "static",
                    staticFileRelativePath := some "/shell.html" } }
      "/shell.html" rfl (by decide)).2.2.1,
   inline_rewrite_and_exclusion.2 _ _ _
     ⟨{ criteria := { path := { exact := some "/resume" } },
        action := { origin := "static",
                    staticFileRelativePath := some "/shell.html" } },
      List.mem_cons_self _ _, by decide⟩⟩

theorem startsWith_slash_mem {d p : String}
    (h : jsStartsWith d (p ++ "/") = true) : ('/' : Char) ∈ d.data := by
  have hpre := jsStartsWith_iff.mp h
  apply hpre.subset
  rw [String.data_append]
  exact List.mem_append_right _ (by decide)

theorem package_json_outside_dirs (p : String) :
    jsStartsWith "package.json" (p ++ "/") = false := by
  cases hb : jsStartsWith "package.json" (p ++ "/") with
  | false => rfl
  | true => exact absurd (startsWith_slash_mem hb) (by decide)

theorem depDecision_skip (cfg : DepConfig) (d : String)
    (h : (∃ u, cfg.underscoreRel = some u ∧ u ≠ "" ∧ jsStartsWith d (u ++ "/") = true) ∨
         (∃ p ∈ cfg.staticRels, jsStartsWith d (p ++ "/") = true) ∨
         jsStartsWith d (cfg.serverRel ++ "/") = true) :
    depDecision cfg d = .skip := by
  unfold depDecision
  by_cases h1 : (strTruthy cfg.underscoreRel &&
      jsStartsWith d ((cfg.underscoreRel.getD "") ++ "/")) = true
  · rw [if_pos h1]
  · rw [if_neg h1]
    by_cases h2 : (!cfg.staticRels.isEmpty &&
        cfg.staticRels.any (fun p => jsStartsWith d (p ++ "/"))) = true
    · rw [if_pos h2]
    · rw [if_neg h2]
      by_cases h3 : jsStartsWith d (cfg.serverRel ++ "/") = true
      · rw [if_pos h3]
      · exfalso
        rcases h with ⟨u, hu, hune, hst⟩ | ⟨p, hp, hst⟩ | hst
        · apply h1
          rw [Bool.and_eq_true]
          constructor
          · rw [hu]
            simpa [strTruthy] using hune
          · rw [hu]
            simpa using hst
        · apply h2
          rw [Bool.and_eq_true]
          constructor
          · have hne : cfg.staticRels ≠ [] := List.ne_nil_of_mem hp
            simpa using hne
          · exact List.any_eq_true.mpr ⟨p, hp, hst⟩
        · exact h3 hst

/-- C4: a traced dependency lying (by project-relative path-prefix check)
inside the underscore-named static directory, inside any root static
directory, or inside the server directory is never copied into the compute
directory; every surviving dependency carries none of those prefixes and is
copied to the identical relative path under the compute directory. -/
theorem dependency_pruning (cfg : DepConfig) (fileList : List String) (d : String) :
    ((∃ u, cfg.underscoreRel = some u ∧ u ≠ "" ∧ jsStartsWith d (u ++ "/") = true) ∨
     (∃ p ∈ cfg.staticRels, jsStartsWith d (p ++ "/") = true) ∨
     jsStartsWith d (cfg.serverRel ++ "/") = true →
      ¬ d ∈ entryFileDependencies cfg fileList) ∧
    (d ∈ entryFileDependencies cfg fileList →
      (∀ u, cfg.underscoreRel = some u → u ≠ "" → jsStartsWith d (u ++ "/") = false) ∧
      (∀ p ∈ cfg.staticRels, jsStartsWith d (p ++ "/") = false) ∧
      jsStartsWith d (cfg.serverRel ++ "/") = false) ∧
    (∀ projectDirPath computeDirPath, d ∈ entryFileDependencies cfg fileList →
      (projectDirPath ++ "/" ++ d, computeDirPath ++ "/" ++ d) ∈
        dependencyCopyPlan projectDirPath computeDirPath cfg fileList) := by
  refine ⟨?_, ?_, ?_⟩
  · intro h hmem
    rw [entryFileDependencies, List.mem_filter] at hmem
    have hcopy := of_decide_eq_true hmem.2
    rw [depDecision_skip cfg d h] at hcopy
    exact DepDecision.noConfusion hcopy
  · intro hmem
    rw [entryFileDependencies, List.mem_filter] at hmem
    have hcopy := of_decide_eq_true hmem.2
    refine ⟨?_, ?_, ?_⟩
    · intro u hu hune
      cases hst : jsStartsWith d (u ++ "/") with
      | false => rfl
      | true =>
        rw [depDecision_skip cfg d (Or.inl ⟨u, hu, hune, hst⟩)] at hcopy
        exact DepDecision.noConfusion hcopy
    · intro p hp
      cases hst : jsStartsWith d (p ++ "/") with
      | false => rfl
      | true =>
        rw [depDecision_skip cfg d (Or.inr (Or.inl ⟨p, hp, hst⟩))] at hcopy
        exact DepDecision.noConfusion hcopy
    · cases hst : jsStartsWith d (cfg.serverRel ++ "/") with
      | false => rfl
      | true =>
        rw [depDecision_skip cfg d (Or.inr (Or.inr hst))] at hcopy
        exact DepDecision.noConfusion hcopy
  · intro projectDirPath computeDirPath hmem
    exact List.mem_map_of_mem _ hmem

/-- Witness for C4: a static-root file is pruned while a `node_modules`
dependency is copied to the identical relative path. -/
theorem dependency_pruning_witness :
    ¬ "public/logo.png" ∈ entryFileDependencies
      { underscoreRel := some ".next/static", staticRels := ["public"],
        serverRel := ".next/standalone" }
      ["node_modules/lib/index.js", "public/logo.png"] ∧
    ("/proj" ++ "/" ++ "node_modules/lib/index.js",
     "/proj/.tilda/build/compute/standalone" ++ "/" ++ "node_modules/lib/index.js") ∈
      dependencyCopyPlan "/proj" "/proj/.tilda/build/compute/standalone"
        { underscoreRel := some ".next/static", staticRels := ["public"],
          serverRel := ".next/standalone" }
        ["node_modules/lib/index.js", "public/logo.png"] :=
  ⟨(dependency_pruning _ _ _).1 (Or.inr (Or.inl ⟨"public", by decide, by decide⟩)),
   (dependency_pruning _ _ _).2.2 _ _ (by decide)⟩

/-- C7: the project root `package.json` is never copied verbatim into the
compute directory: with a truthy `type` field a minimal manifest holding
only that marker is written, without one nothing derived from the trace is
written at all. -/
theorem package_json_special_case (cfg : DepConfig) :
    (∀ fileList, ¬ "package.json" ∈ entryFileDependencies cfg fileList) ∧
    (∀ t, cfg.pkgType = some t → t ≠ "" →
      depDecision cfg "package.json" = .manifestWrite (minimalManifestText t)) ∧
    (cfg.pkgType = none ∨ cfg.pkgType = some "" →
      depDecision cfg "package.json" = .manifestSkip) := by
  have h1 : (strTruthy cfg.underscoreRel &&
      jsStartsWith "package.json" ((cfg.underscoreRel.getD "") ++ "/")) = false := by
    rw [package_json_outside_dirs]
    exact Bool.and_false _
  have h2 : (!cfg.staticRels.isEmpty &&
      cfg.staticRels.any (fun p => jsStartsWith "package.json" (p ++ "/"))) = false := by
    have hany : cfg.staticRels.any
        (fun p => jsStartsWith "package.json" (p ++ "/")) = false := by
      apply List.any_eq_false.mpr
      intro p hp
      simp [package_json_outside_dirs p]
    rw [hany]
    exact Bool.and_false _
  have h3 := package_json_outside_dirs cfg.serverRel
  have hdec : depDecision cfg "package.json" =
      (if strTruthy cfg.pkgType then
        DepDecision.manifestWrite (minimalManifestText (cfg.pkgType.getD ""))
      else .manifestSkip) := by
    unfold depDecision
    rw [if_neg (by simp [h1]), if_neg (by simp [h2]), if_neg (by simp [h3]), if_pos rfl]
  refine ⟨?_, ?_, ?_⟩
  · intro fileList hmem
    rw [entryFileDependencies, List.mem_filter] at hmem
    have hcopy := of_decide_eq_true hmem.2
    rw [hdec] at hcopy
    by_cases ht : strTruthy cfg.pkgType = true
    · rw [if_pos ht] at hcopy
      exact DepDecision.noConfusion hcopy
    · rw [if_neg ht] at hcopy
      exact DepDecision.noConfusion hcopy
  · intro t htype hne
    rw [hdec, htype]
    have ht : strTruthy (some t) = true := by simpa [strTruthy] using hne
    rw [if_pos ht]
    simp
  · intro hcase
    rw [hdec]
    rcases hcase with hnone | hempty
    · rw [hnone]
      rfl
    · rw [hempty]
      rfl

/-- Witness for C7: a manifest with `type: "module"` leads to a minimal
manifest write and no verbatim copy. -/
theorem package_json_special_case_witness :
    ¬ "package.json" ∈ entryFileDependencies
      { serverRel := "server", pkgType := some "module" }
      ["package.json", "node_modules/a/b.js"] ∧
    depDecision { serverRel := "server", pkgType := some "module" } "package.json" =
      .manifestWrite (minimalManifestText "module") :=
  ⟨(package_json_special_case _).1 _,
   (package_json_special_case _).2.1 "module" rfl (by decide)⟩

theorem zipEntryOf_spec (e : FsEntry) (hd : e.kind ≠ .dir) :
    zipEntryOfFsEntry e = some ⟨e.relPath, e.content, decide (e.kind = .symlink)⟩ := by
  cases hk : e.kind
  · simp [zipEntryOfFsEntry, hk]
  · exact absurd hk hd
  · simp [zipEntryOfFsEntry, hk]

theorem zipEntryOf_path {e : FsEntry} {x : ZipEntry}
    (h : zipEntryOfFsEntry e = some x) : x.path = e.relPath := by
  cases hk : e.kind <;> simp [zipEntryOfFsEntry, hk] at h
  · obtain rfl := h
    rfl
  · obtain rfl := h
    rfl

theorem zipPaths_sub {es : List FsEntry} {x : ZipEntry}
    (h : x ∈ es.filterMap zipEntryOfFsEntry) :
    x.path ∈ es.map (fun e => e.relPath) := by
  obtain ⟨e, he, hx⟩ := List.mem_filterMap.mp h
  rw [zipEntryOf_path hx]
  exact List.mem_map_of_mem _ he

theorem addZipEntries_no_collision :
    ∀ (es : List FsEntry) (z : List ZipEntry),
      (∀ x ∈ z, ¬ x.path ∈ es.map (fun e => e.relPath)) →
      (es.map (fun e => e.relPath)).Nodup →
      addZipEntries es z = z ++ es.filterMap zipEntryOfFsEntry := by
  intro es
  induction es with
  | nil =>
    intro z _ _
    simp [addZipEntries]
  | cons e es ih =>
    intro z hz hnd
    rw [List.map_cons, List.nodup_cons] at hnd
    obtain ⟨hnotin, hndtail⟩ := hnd
    unfold addZipEntries
    cases hk : zipEntryOfFsEntry e with
    | none =>
      dsimp only
      rw [ih z (fun x hx hmem => hz x hx
        (by rw [List.map_cons]; exact List.mem_cons_of_mem _ hmem)) hndtail]
      simp [List.filterMap_cons, hk]
    | some x =>
      have hxpath : x.path = e.relPath := zipEntryOf_path hk
      have hadd : zipFileAdd z x = z ++ [x] := by
        unfold zipFileAdd
        have hany : z.any (fun y => y.path == x.path) = false := by
          apply List.any_eq_false.mpr
          intro y hy
          have hnm := hz y hy
          rw [List.map_cons] at hnm
          simp only [List.mem_cons, not_or] at hnm
          rw [hxpath]
          simp [hnm.1]
        rw [if_neg (by simp [hany])]
      dsimp only
      rw [hadd]
      rw [ih (z ++ [x]) ?_ hndtail]
      · simp [List.filterMap_cons, hk, List.append_assoc]
      · intro y hy
        rcases List.mem_append.mp hy with hyz | hyx
        · exact fun hmem => hz y hyz
            (by rw [List.map_cons]; exact List.mem_cons_of_mem _ hmem)
        · have : y = x := by simpa using hyx
          rw [this, hxpath]
          exact hnotin

theorem filter_filterMap_nil :
    ∀ (es : List FsEntry) (pth : String), ¬ pth ∈ es.map (fun e => e.relPath) →
      (es.filterMap zipEntryOfFsEntry).filter (fun x => x.path == pth) = [] := by
  intro es
  induction es with
  | nil =>
    intro pth _
    rfl
  | cons e es ih =>
    intro pth hp
    rw [List.map_cons] at hp
    simp only [List.mem_cons, not_or] at hp
    cases hk : zipEntryOfFsEntry e with
    | none =>
      simp only [List.filterMap_cons, hk]
      exact ih pth hp.2
    | some x =>
      simp only [List.filterMap_cons, hk]
      rw [List.filter_cons]
      have hxp : (x.path == pth) = false := by
        rw [zipEntryOf_path hk]
        simp
        exact fun hEq => hp.1 hEq.symm
      rw [if_neg (by simp [hxp])]
      exact ih pth hp.2

theorem filter_filterMap_mem :
    ∀ (es : List FsEntry) (e : FsEntry), e ∈ es → e.kind ≠ .dir →
      (es.map (fun x => x.relPath)).Nodup →
      (es.filterMap zipEntryOfFsEntry).filter (fun x => x.path == e.relPath) =
        [⟨e.relPath, e.content, decide (e.kind = .symlink)⟩] := by
  intro es
  induction es with
  | nil =>
    intro e he
    simp at he
  | cons a as ih =>
    intro e he hd hnd
    rw [List.map_cons, List.nodup_cons] at hnd
    obtain ⟨hnotin, hndtail⟩ := hnd
    rcases List.mem_cons.mp he with rfl | hein
    · simp only [List.filterMap_cons, zipEntryOf_spec e hd]
      rw [List.filter_cons]
      rw [if_pos (by simp)]
      rw [filter_filterMap_nil as e.relPath hnotin]
    · cases hk : zipEntryOfFsEntry a with
      | none =>
        simp only [List.filterMap_cons, hk]
        exact ih e hein hd hndtail
      | some x =>
        simp only [List.filterMap_cons, hk]
        rw [List.filter_cons]
        have hxe : (x.path == e.relPath) = false := by
          rw [zipEntryOf_path hk]
          have hne : a.relPath ≠ e.relPath := by
            intro hEq
            exact hnotin (hEq ▸ List.mem_map_of_mem _ hein)
          simp [hne]
        rw [if_neg (by simp [hxe])]
        exact ih e hein hd hndtail

theorem buildZip_plain (files : List FsEntry) (m : String)
    (hnd : (files.map (fun e => e.relPath)).Nodup)
    (hmeta : ¬ "metadata.json" ∈ files.map (fun e => e.relPath)) :
    buildZip files m = files.filterMap zipEntryOfFsEntry ++
      [⟨"metadata.json", m, false⟩] := by
  unfold buildZip
  rw [addZipEntries_no_collision files [] (by simp) hnd, List.nil_append]
  unfold zipFileAdd
  have hany : (files.filterMap zipEntryOfFsEntry).any
      (fun y => y.path == ("metadata.json" : String)) = false := by
    apply List.any_eq_false.mpr
    intro y hy
    have hmem := zipPaths_sub hy
    have hne : y.path ≠ "metadata.json" := fun hEq => hmeta (hEq ▸ hmem)
    simp [hne]
  rw [if_neg (by simp [hany])]

/-- C5: under the build-tree invariants that listing paths are distinct and
`metadata.json` is not among them (the listing is taken before the metadata
document is written), the archive holds exactly one entry per non-directory
listing entry at its relative path — a symlink entry stores the link-target
text with the symlink permission bit, a regular file stores its bytes — and
a top-level `metadata.json` entry whose bytes are the metadata document
written into the staging tree. -/
theorem archive_contents (files : List FsEntry) (metadataText : String)
    (hnd : (files.map (fun e => e.relPath)).Nodup)
    (hmeta : ¬ "metadata.json" ∈ files.map (fun e => e.relPath)) :
    (∀ e ∈ files, e.kind ≠ .dir →
      (buildZip files metadataText).filter (fun x => x.path == e.relPath) =
        [⟨e.relPath, e.content, decide (e.kind = .symlink)⟩]) ∧
    (buildZip files metadataText).filter
        (fun x => x.path == ("metadata.json" : String)) =
      [⟨"metadata.json", metadataText, false⟩] := by
  constructor
  · intro e he hd
    rw [buildZip_plain files metadataText hnd hmeta, List.filter_append]
    rw [filter_filterMap_mem files e he hd hnd]
    have hne : e.relPath ≠ "metadata.json" :=
      fun hEq => hmeta (hEq ▸ List.mem_map_of_mem _ he)
    have h2 : (("metadata.json" : String) == e.relPath) = false := by
      simp
      exact fun hEq => hne hEq.symm
    rw [List.filter_cons]
    rw [if_neg (by simp [h2])]
    rfl
  · rw [buildZip_plain files metadataText hnd hmeta, List.filter_append]
    rw [filter_filterMap_nil files "metadata.json" hmeta]
    rw [List.filter_cons]
    rw [if_pos (by simp)]
    rfl

/-- Witness for C5: a two-entry staging tree with a regular file and a
symlink, and the metadata document. -/
theorem archive_contents_witness :
    (buildZip
      [{ relPath := "static/a.txt", kind := .file, content := "hello" },
       { relPath := "compute/srv/link.js", kind := .symlink, content := "./real.js" }]
      "META").filter
        (fun x => x.path == ("compute/srv/link.js" : String)) =
      [⟨"compute/srv/link.js", "./real.js", decide (FsKind.symlink = FsKind.symlink)⟩] ∧
    (buildZip
      [{ relPath := "static/a.txt", kind := .file, content := "hello" },
       { relPath := "compute/srv/link.js", kind := .symlink, content := "./real.js" }]
      "META").filter
        (fun x => x.path == ("metadata.json" : String)) =
      [⟨"metadata.json", "META", false⟩] :=
  ⟨(archive_contents
      [{ relPath := "static/a.txt", kind := .file, content := "hello" },
       { relPath := "compute/srv/link.js", kind := .symlink, content := "./real.js" }]
      "META" (by decide) (by decide)).1
      { relPath := "compute/srv/link.js", kind := .symlink, content := "./real.js" }
      (by decide) (by decide),
   (archive_contents
      [{ relPath := "static/a.txt", kind := .file, content := "hello" },
       { relPath := "compute/srv/link.js", kind := .symlink, content := "./real.js" }]
      "META" (by decide) (by decide)).2⟩

theorem replaceFirstAux_no_dot :
    ∀ (l : List Char), ('.' : Char) ∉ l → replaceFirstAux ['.'] ['_'] l = l := by
  intro l
  induction l with
  | nil => intro; rfl
  | cons c cs ih =>
    intro h
    simp only [List.mem_cons, not_or] at h
    unfold replaceFirstAux
    have hpre : (['.'] : List Char).isPrefixOf (c :: cs) = false := by
      simp [List.isPrefixOf]
      exact fun hEq => h.1 hEq
    rw [if_neg (by simp [hpre])]
    rw [ih h.2]

theorem replaceFirstAux_dot (b : List Char) :
    ∀ (a : List Char), ('.' : Char) ∉ a →
      replaceFirstAux ['.'] ['_'] (a ++ '.' :: b) = a ++ '_' :: b := by
  intro a
  induction a with
  | nil =>
    intro
    simp [replaceFirstAux, List.isPrefixOf]
  | cons c cs ih =>
    intro h
    simp only [List.mem_cons, not_or] at h
    rw [List.cons_append]
    unfold replaceFirstAux
    have hpre : (['.'] : List Char).isPrefixOf (c :: (cs ++ '.' :: b)) = false := by
      simp [List.isPrefixOf]
      exact fun hEq => h.1 hEq
    rw [if_neg (by simp [hpre])]
    rw [ih h.2, List.cons_append]

/-- Counterexample for C8 as stated: for the relative path `out.dir/static`
— whose first dot is not leading — the code replaces that first dot anyway
(`out_dir/static`) while the claimed leading-dot-only rule would leave the
path unchanged. -/
theorem underscoreDirName_not_leading_only :
    underscoreDirName "out.dir/static" = "out_dir/static" ∧
    specLeadingDotReplaced "out.dir/static" = "out.dir/static" ∧
    ¬ underscoreDirName "out.dir/static" = specLeadingDotReplaced "out.dir/static" :=
  ⟨by decide, by decide, by decide⟩

/-- C8 amended: the subdirectory name replaces the FIRST `.` occurring
anywhere in the project-relative path (in particular a leading one) with
`_`, leaving the rest unchanged; a path without any dot is unchanged. -/
theorem underscoreDirName_first_dot :
    (∀ s : String, ('.' : Char) ∉ s.data → underscoreDirName s = s) ∧
    (∀ a b : String, ('.' : Char) ∉ a.data →
      underscoreDirName (a ++ "." ++ b) = a ++ "_" ++ b) := by
  constructor
  · intro s hs
    unfold underscoreDirName jsReplaceFirst
    rw [if_neg (by decide)]
    apply strDataEq
    show replaceFirstAux ".".data "_".data s.data = s.data
    rw [show (".".data : List Char) = ['.'] from rfl,
      show ("_".data : List Char) = ['_'] from rfl]
    exact replaceFirstAux_no_dot s.data hs
  · intro a b ha
    unfold underscoreDirName jsReplaceFirst
    rw [if_neg (by decide)]
    apply strDataEq
    show replaceFirstAux ".".data "_".data (a ++ "." ++ b).data = (a ++ "_" ++ b).data
    simp only [String.data_append]
    rw [List.append_assoc, List.singleton_append]
    rw [replaceFirstAux_dot b.data a.data ha]
    rw [List.append_assoc, List.singleton_append]

/-- Witness for the amended C8: a dotless name is unchanged and the Next.js
case `.next/static` maps to `_next/static` (leading dot is the first dot). -/
theorem underscoreDirName_first_dot_witness :
    underscoreDirName "_next/static" = "_next/static" ∧
    underscoreDirName ("" ++ "." ++ "next/static") = "" ++ "_" ++ "next/static" :=
  ⟨underscoreDirName_first_dot.1 "_next/static" (by decide),
   underscoreDirName_first_dot.2 "" "next/static" (by decide)⟩

/-- Counterexample for C9 as stated: when BOTH `package-lock.json` and
`pnpm-lock.yaml` exist as regular files, the build does not fail — there is
no verification that exactly one exists — and both lock files, not only the
accepted first one, are copied into `debug/`. -/
theorem lockFileCheck_both_present :
    lockFileCheck (some true) (some true) =
      .ok ["package-lock.json", "pnpm-lock.yaml"] ∧
    (lockFileCheck (some true) (some true)).isOk = true :=
  ⟨rfl, rfl⟩

/-- C9 amended: the build verifies that AT LEAST one lock file is a regular
file at the project root — when none is, it terminates with the fatal
lock-file error before packaging — and every candidate whose stat succeeded
(including the accepted one) is copied into the `debug/` zone. -/
theorem lockFileCheck_at_least_one (statPackageLock statPnpmLock : StatOutcome) :
    lockFileCheck statPackageLock statPnpmLock =
      (if statPackageLock = some true ∨ statPnpmLock = some true then
        .ok ((if statPackageLock.isSome then ["package-lock.json"] else []) ++
          (if statPnpmLock.isSome then ["pnpm-lock.yaml"] else []))
      else .error "Lock file not found: package-lock.json, pnpm-lock.yaml") := by
  rcases statPackageLock with _ | b1 <;> rcases statPnpmLock with _ | b2
  · rfl
  · cases b2 <;> rfl
  · cases b1 <;> rfl
  · cases b1 <;> cases b2 <;> rfl

/-- Counterexample for C10 as stated: a call that succeeds with the result
`undefined` — e.g. `safely(fs.writeFile(...))`, ubiquitous in this code —
returns `[undefined, undefined]`: NO component is defined, refuting
"exactly one component is defined". -/
theorem safely_undefined_result :
    (safely (Except.ok none : Except (Option Nat) (Option Nat))).1.isSome = false ∧
    (safely (Except.ok none : Except (Option Nat) (Option Nat))).2.isSome = false :=
  ⟨rfl, rfl⟩

/-- C10 amended: `safely` is a total function of the call's outcome (so it
never throws or rejects), returning `[undefined, result]` on success and
`[error, undefined]` on failure; the two components are never both defined,
and exactly one is defined precisely when the returned value (resp. thrown
error) is itself not `undefined`. -/
theorem safely_pairs {ε α : Type} (outcome : Except (Option ε) (Option α)) :
    (∀ v, outcome = .ok v → safely outcome = (none, v)) ∧
    (∀ e, outcome = .error e → safely outcome = (e, none)) ∧
    ¬ ((safely outcome).1.isSome = true ∧ (safely outcome).2.isSome = true) := by
  refine ⟨?_, ?_, ?_⟩
  · intro v hv
    rw [hv]
    rfl
  · intro e he
    rw [he]
    rfl
  · cases outcome with
    | ok v =>
      intro h
      simp [safely] at h
    | error e =>
      intro h
      simp [safely] at h

/-- Witness for the amended C10 at concrete outcomes. -/
theorem safely_pairs_witness :
    safely (Except.ok (some 5) : Except (Option Nat) (Option Nat)) = (none, some 5) ∧
    safely (Except.error (some 7) : Except (Option Nat) (Option Nat)) = (some 7, none) :=
  ⟨(safely_pairs (Except.ok (some 5))).1 (some 5) rfl,
   (safely_pairs (Except.error (some 7))).2.1 (some 7) rfl⟩
